import Mathlib

/-!
Verification development for the beholders repository (Beholder Signature:
Schnorr + KZG openings composed through the Fischlin transform).

Shallow embedding conventions:
* Machine integers are modelled as Nat; type bounds (u32, u64, u16, u8) are
  made explicit with comparisons / mod where overflow or truncation matters.
* A Rust function that can panic (assert!, index out of bounds, division by
  zero, integer overflow in debug builds, try_into().unwrap()) is modelled in
  Option: none is a panic.  Fallible functions returning Result<_, String>
  carry an inner Except String: the overall shape is Option (Except String α).
* The BLS12-381 scalar field Fr is ZMod frOrder.  The G1 group used by the
  code is the cyclic group of order frOrder generated by G; the code only
  builds G1 points from the generator via mul/add and compares them for
  equality, so G1 is modelled through the discrete-log isomorphism as the
  scalar ring itself, with generator 1, mul s and add transported.
* External backend primitives (the SHA-512 compression function, full
  SHA-512, group/field serialization, the KZG pairing check, FFT roots of
  unity, FK20 batch opening, the CSPRNG) live behind an Oracle structure:
  the code under verification is everything layered on top of them.
-/

namespace Beholders

/-- Order of the BLS12-381 scalar field (the modulus of Fr). -/
def frOrder : Nat :=
  52435875175126190479447740508185965837690552500527637822603658699938581184513

/-- Scalar field element, src/types.rs TFr. -/
abbrev Fr : Type := ZMod frOrder

/-- G1 point, modelled via the discrete-log isomorphism (see header). -/
abbrev G1 : Type := Fr

/-- TG1::generator(). -/
def G1gen : G1 := 1

/-- G1 scalar multiplication p.mul(&s). -/
def G1mul (p : G1) (s : Fr) : G1 := s * p

/-- G1 addition p.add(&q). -/
def G1add (p q : G1) : G1 := p + q

/-- TFr::from_u64, as used for the u32 Schnorr challenge: no reduction occurs
since 2^64 < frOrder. -/
def frOfU64 (n : Nat) : Fr := (n : Fr)

/-- Schnorr transcript, src/schnorr.rs.  The challenge c is a u32. -/
structure Schnorr where
  a : G1
  c : Nat
  z : Fr
deriving DecidableEq

/-- Schnorr::verify (src/schnorr.rs lines 18-22):
fr(c)*pk + a == z*G. -/
def Schnorr.verify (s : Schnorr) (pk : G1) : Bool :=
  decide (G1add (G1mul pk (frOfU64 s.c)) s.a = G1mul G1gen s.z)

/-- Schnorr::prove (src/schnorr.rs lines 24-31): a = r*G, z = r + fr(c)*sk. -/
def Schnorr.prove (sk r : Fr) (c : Nat) : Schnorr :=
  { a := G1mul G1gen r, c := c, z := r + (frOfU64 c) * sk }

/-- maxc (src/schnorr.rs lines 34-36) is 1u32 << difficulty.  The shift of a
u32 by 32 or more overflows: the program aborts in debug builds (release
builds mask the shift amount), so the result 2^difficulty is only produced
for difficulty < 32; none models the abort. -/
def maxcU32 (difficulty : Nat) : Option Nat :=
  if difficulty < 32 then some (2 ^ difficulty) else none

/-- SHA-512 state / hash output [u64; 8], src/hashing.rs HashOutput. -/
abbrev HashOutput : Type := Fin 8 → Nat

/-- The all-zero state, HashOutput::default(). -/
def hashZero : HashOutput := fun _ => 0

/-- util::bitxor specialised to HashOutput (element-wise u64 xor). -/
def bitxor (x y : HashOutput) : HashOutput := fun i => Nat.xor (x i) (y i)

/-- Little-endian byte encoding of a value into n bytes (to_le_bytes). -/
def bytesLE (v n : Nat) : List Nat :=
  (List.range n).map fun j => v / 256 ^ j % 256

/-- External backend capabilities the core is built on (see header). -/
structure Oracle where
  compress : HashOutput → List Nat → HashOutput
  sha512 : List Nat → HashOutput
  g1Bytes : G1 → List Nat
  frBytes : Fr → List Nat
  frFromBytes : List Nat → Fr
  kzgCheck : G1 → G1 → Fr → Fr → Except String Bool
  roots : List Fr
  rand : Nat → Fr
  openAll : List Fr → Except String (G1 × List G1)

/-- Reinterpretation of the [u64; 8] compression state as [u16; 32]
(bytemuck::cast on a little-endian target): u16 number j is bits
16*(j%4) .. 16*(j%4)+15 of word j/4. -/
def u16sOfState (s : HashOutput) : List Nat :=
  List.ofFn fun j : Fin 32 => s ⟨j.val / 4, by omega⟩ / 2 ^ (16 * (j.val % 4)) % 65536

/-- derive_indices (src/hashing.rs lines 25-58).  Panics (none) when
data_len > u16::MAX, when num_indices > 32, or - via x % data_len - when
data_len = 0.  The 128-byte block holds i as LE u64 in bytes 0..8 and the
challenge in bytes 8..40 (the challenge is the u32 c little-endian followed
by zero padding, which is exactly the little-endian Fr encoding of fr(c));
bytes 40..128 are zero.  The state starts from zero, one compression is
applied, and the first num_indices u16s of the state are reduced mod
data_len. -/
def derive_indices (O : Oracle) (i c num_indices data_len : Nat) :
    Option (List Nat) :=
  if 65535 < data_len then none
  else if 32 < num_indices then none
  else if data_len = 0 then none
  else
    let input := bytesLE i 8 ++ bytesLE c 4 ++ List.replicate 28 0 ++
      List.replicate 88 0
    let state := O.compress hashZero input
    some (((u16sOfState state).map fun x => x % data_len).take num_indices)

/-- individual_hash (src/hashing.rs lines 67-95).  Panics (none) when
fisch_iter does not fit in a u16.  The 128-byte block is
opening.to_bytes() (48) ++ c as LE u32 zero-padded to 32 ++ z.to_bytes() (32)
++ first 8 bytes of val.to_bytes() ++ k (u8) ++ fisch_iter as LE u16 ++
5 zero bytes, compressed starting from the prelude state. -/
def individual_hash (O : Oracle) (prel : HashOutput) (s : Schnorr)
    (fisch_iter k : Nat) (val : Fr) (opening : G1) : Option HashOutput :=
  if 65536 ≤ fisch_iter then none
  else
    let input := O.g1Bytes opening ++ (bytesLE s.c 4 ++ List.replicate 28 0) ++
      O.frBytes s.z ++ (O.frBytes val).take 8 ++ [k] ++ bytesLE fisch_iter 2 ++
      List.replicate 5 0
    some (O.compress prel input)

/-- Trailing zero count of a u64 (u64::trailing_zeros): 64 for 0. -/
def tzAux : Nat → Nat → Nat
  | 0, _ => 0
  | fuel + 1, n => if n % 2 = 1 then 0 else tzAux fuel (n / 2) + 1

/-- Trailing zeros of the least 64 bits of n. -/
def tz64 (n : Nat) : Nat := tzAux 64 (n % 2 ^ 64)

/-- pow_pass (src/hashing.rs lines 98-101): asserts difficulty <= 64 (none on
violation), then tests hash_output[0].trailing_zeros() >= difficulty. -/
def pow_pass (h : HashOutput) (difficulty : Nat) : Option Bool :=
  if difficulty ≤ 64 then some (decide (difficulty ≤ tz64 (h 0))) else none

/-- prelude (src/hashing.rs lines 17-23): SHA-512 of
pk.to_bytes() ++ com.to_bytes() ++ a_0.to_bytes() ++ ... as a [u64; 8]. -/
def preludeHash (O : Oracle) (pk com : G1) (a_i : List G1) : HashOutput :=
  O.sha512 (((pk :: com :: a_i).map O.g1Bytes).flatten)

/-- get_point (src/commitment.rs lines 50-58): roots_of_unity[i * stride]
with stride = (roots.len() - 1) / data_len.  Panics (none) when roots is
empty (usize underflow), when data_len = 0 (division by zero) or when the
index is out of bounds. -/
def getPoint (O : Oracle) (data_len i : Nat) : Option Fr :=
  if O.roots.length = 0 then none
  else if data_len = 0 then none
  else O.roots.get? (i * ((O.roots.length - 1) / data_len))

/-- BaseProof (src/proof.rs lines 17-22). -/
structure BaseProof where
  schnorr : Schnorr
  data : List Fr
  openings : List G1
deriving DecidableEq

/-- FischIter (src/proof.rs lines 31-35). -/
inductive FischIter where
  | Commitment : G1 → FischIter
  | BaseProof : BaseProof → FischIter
deriving DecidableEq

/-- FischIter::a (src/proof.rs lines 39-44). -/
def FischIter.a : FischIter → G1
  | .Commitment com => com
  | .BaseProof bp => bp.schnorr.a

/-- Proof (src/proof.rs lines 98-101). -/
structure Proof where
  fisch_iters : List FischIter
deriving DecidableEq

/-- The verification loop body of BaseProof::verify (src/proof.rs lines
261-282), walking izip!(indices.enumerate(), data, openings) with the PoW
accumulator; k is the enumerate counter, which the source converts to u8
(none when it would not fit).  The loop stops at the shortest input (izip!),
then checks the accumulated PoW. -/
def verifyFold (O : Oracle) (com : G1) (data_len difficulty : Nat)
    (prel : HashOutput) (s : Schnorr) (fi : Nat) :
    Nat → List Nat → List Fr → List G1 → HashOutput →
    Option (Except String Bool)
  | k, idx :: idxs, v :: vs, op :: ops, h =>
    if 256 ≤ k then none
    else
      match getPoint O data_len idx with
      | none => none
      | some x =>
        match O.kzgCheck com op x v with
        | .error e => some (.error e)
        | .ok b =>
          if ¬b then some (.ok false)
          else
            match individual_hash O prel s fi k v op with
            | none => none
            | some ph => verifyFold O com data_len difficulty prel s fi
                (k + 1) idxs vs ops (bitxor h ph)
  | _, _, _, _, h =>
    (pow_pass h difficulty).map fun p => if p then .ok true else .ok false

/-- BaseProof::verify (src/proof.rs lines 236-285).  In order: compute
maxc(difficulty) (abort propagates), check c <= maxc (note: the source uses
<=, not <), check the Schnorr transcript, recompute the indices, assert the
index count and that data and openings have equal length, then run the
opening/PoW loop. -/
def baseProofVerify (O : Oracle) (bp : BaseProof) (fisch_iter : Nat)
    (prel : HashOutput) (pk com : G1) (data_len difficulty mvalue : Nat) :
    Option (Except String Bool) :=
  match maxcU32 difficulty with
  | none => none
  | some mx =>
    if ¬(bp.schnorr.c ≤ mx) then some (.ok false)
    else if ¬(bp.schnorr.verify pk) then some (.ok false)
    else
      match derive_indices O fisch_iter bp.schnorr.c mvalue data_len with
      | none => none
      | some indices =>
        if indices.length ≠ mvalue then none
        else if bp.data.length ≠ bp.openings.length then none
        else verifyFold O com data_len difficulty prel bp.schnorr fisch_iter
          0 indices bp.data bp.openings hashZero

/-- FischIter::verify (src/proof.rs lines 48-72): a bare Commitment is
invalid; a BaseProof is verified. -/
def fischIterVerify (O : Oracle) (fi : FischIter) (fisch_iter : Nat)
    (prel : HashOutput) (pk com : G1) (data_len difficulty mvalue : Nat) :
    Option (Except String Bool) :=
  match fi with
  | .Commitment _ => some (.ok false)
  | .BaseProof bp =>
    baseProofVerify O bp fisch_iter prel pk com data_len difficulty mvalue

/-- Proof::prelude (src/proof.rs lines 104-107). -/
def proofPrelude (O : Oracle) (pf : Proof) (pk com : G1) : HashOutput :=
  preludeHash O pk com (pf.fisch_iters.map FischIter.a)

/-- Collection of per-iteration Results into a single Result
(collect::<Result<Vec<_>, _>>()). -/
def collectExcept : List (Except String Bool) → Except String (List Bool)
  | [] => .ok []
  | .error e :: _ => .error e
  | .ok b :: rest =>
    match collectExcept rest with
    | .error e => .error e
    | .ok bs => .ok (b :: bs)

/-- Proof::verify (src/proof.rs lines 124-166).  Asserts the slot count is
even (none on violation), recomputes the prelude, verifies each slot at its
index (par_iter().enumerate() modelled by indexing the slot list over
0..len), propagates a panic or an Err from any slot, and accepts iff
passed * 2 >= len. -/
def proofVerify (O : Oracle) (pf : Proof) (pk com : G1)
    (data_len difficulty mvalue : Nat) : Option (Except String Bool) :=
  if pf.fisch_iters.length % 2 ≠ 0 then none
  else
    match (List.range pf.fisch_iters.length).mapM
        (fun i => fischIterVerify O (pf.fisch_iters.getD i (.Commitment 0)) i
          (proofPrelude O pf pk com) pk com data_len difficulty mvalue) with
    | none => none
    | some results =>
      match collectExcept results with
      | .error e => some (.error e)
      | .ok bs => some (.ok (decide (bs.count true * 2 ≥ pf.fisch_iters.length)))

/-- The mining loop body of BaseProof::prove (src/proof.rs lines 310-315),
walking izip!(data, openings).enumerate() and xoring the individual hashes;
k is the enumerate counter, converted to u8 (none when it would not fit). -/
def proveFold (O : Oracle) (prel : HashOutput) (s : Schnorr) (fi : Nat) :
    Nat → List Fr → List G1 → HashOutput → Option HashOutput
  | k, v :: vs, op :: ops, h =>
    if 256 ≤ k then none
    else
      match individual_hash O prel s fi k v op with
      | none => none
      | some ph => proveFold O prel s fi (k + 1) vs ops (bitxor h ph)
  | _, _, _, h => some h

/-- One candidate challenge of the mining loop of BaseProof::prove
(src/proof.rs lines 301-323): build the Schnorr transcript for c, derive the
indices (assert their count), select the challenged data values and openings
(indexing panics guarded), accumulate the PoW hash, and on success return
the assembled BaseProof. -/
def attempt (O : Oracle) (fisch_iter : Nat) (prel : HashOutput)
    (openings : List G1) (r sk : Fr) (data : List Fr)
    (difficulty mvalue c : Nat) : Option (Option BaseProof) :=
  let schnorr := Schnorr.prove sk r c
  match derive_indices O fisch_iter c mvalue data.length with
  | none => none
  | some indices =>
    if indices.length ≠ mvalue then none
    else if ¬(indices.all fun ix =>
        ix < data.length && ix < openings.length) then none
    else
      let dataSel := indices.map fun ix => data.getD ix 0
      let opSel := indices.map fun ix => openings.getD ix 0
      match proveFold O prel schnorr fisch_iter 0 dataSel opSel hashZero with
      | none => none
      | some h =>
        match pow_pass h difficulty with
        | none => none
        | some p =>
          if p then some (some ⟨schnorr, dataSel, opSel⟩) else some none

/-- The ascending scan for c in 0..maxc of BaseProof::prove: mineFrom c fuel
scans the challenges c, c+1, ..., c+fuel-1 in order and stops at the first
success. -/
def mineFrom (O : Oracle) (fisch_iter : Nat) (prel : HashOutput)
    (openings : List G1) (r sk : Fr) (data : List Fr)
    (difficulty mvalue : Nat) : Nat → Nat → Option (Option BaseProof)
  | _, 0 => some none
  | c, fuel + 1 =>
    match attempt O fisch_iter prel openings r sk data difficulty mvalue c with
    | none => none
    | some (some bp) => some (some bp)
    | some none => mineFrom O fisch_iter prel openings r sk data difficulty
        mvalue (c + 1) fuel

/-- BaseProof::prove (src/proof.rs lines 289-327): assert
data.len() == openings.len(), compute maxc(difficulty) (abort propagates),
then scan c in 0..maxc ascending. -/
def baseProofProve (O : Oracle) (fisch_iter : Nat) (prel : HashOutput)
    (openings : List G1) (r sk : Fr) (data : List Fr)
    (difficulty mvalue : Nat) : Option (Option BaseProof) :=
  if data.length ≠ openings.length then none
  else
    match maxcU32 difficulty with
    | none => none
    | some mx =>
      mineFrom O fisch_iter prel openings r sk data difficulty mvalue 0 mx

/-- FischIter::prove (src/proof.rs lines 76-92): a found BaseProof, else the
bare Schnorr commitment r*G. -/
def fischIterProve (O : Oracle) (fisch_iter : Nat) (prel : HashOutput)
    (openings : List G1) (r sk : Fr) (data : List Fr)
    (difficulty mvalue : Nat) : Option FischIter :=
  match baseProofProve O fisch_iter prel openings r sk data difficulty
      mvalue with
  | none => none
  | some (some bp) => some (.BaseProof bp)
  | some none => some (.Commitment (G1mul G1gen r))

/-- The body of Proof::prove after chunking (src/proof.rs lines 202-231):
batch-open the data, draw the nonces r_i, form pk and the prelude over the
a_i in iteration order, and run every Fischlin iteration at its own index
(into_par_iter() over 0..nfisch modelled by mapping the index range, which
is exactly the index-ordered collection rayon guarantees). -/
def proofProveChunks (O : Oracle) (sk : Fr) (data : List Fr)
    (nfisch difficulty mvalue : Nat) :
    Option (Except String (Option Proof × G1)) :=
  match O.openAll data with
  | .error e => some (.error e)
  | .ok (com, openings) =>
    let r_i := (List.range nfisch).map O.rand
    let pk := G1mul G1gen sk
    let a_i := r_i.map fun r => G1mul G1gen r
    let prel := preludeHash O pk com a_i
    match (List.range nfisch).mapM
        (fun fisch_iter => fischIterProve O fisch_iter prel openings
          (r_i.getD fisch_iter 0) sk data difficulty mvalue) with
    | none => none
    | some fisch_iters => some (.ok (some ⟨fisch_iters⟩, com))

/-- The byte chunking of Proof::prove (src/proof.rs lines 197-200):
data.chunks_exact(32) keeps the floor(len/32) full 32-byte chunks, silently
dropping any remainder, and maps each through Fr::from_bytes_unchecked. -/
def dataChunks (O : Oracle) (data : List Nat) : List Fr :=
  (List.range (data.length / 32)).map fun i =>
    O.frFromBytes ((data.drop (32 * i)).take 32)

/-- usize::is_power_of_two (false at 0). -/
def isPow2 (n : Nat) : Bool := decide (n ≠ 0) && Nat.land n (n - 1) == 0

/-- Proof::prove (src/proof.rs lines 184-232): assert the byte length is a
power of two (none on violation; this is the only precondition check), chunk
the bytes, and run the aggregation body. -/
def proofProve (O : Oracle) (sk : Fr) (data : List Nat)
    (nfisch difficulty mvalue : Nat) :
    Option (Except String (Option Proof × G1)) :=
  if ¬isPow2 data.length then none
  else proofProveChunks O sk (dataChunks O data) nfisch difficulty mvalue

/-- Whether a slot carries a BaseProof (used to phrase the threshold rule). -/
def FischIter.isBase : FischIter → Bool
  | .Commitment _ => false
  | .BaseProof _ => true

/-- The success predicate of one mining candidate, stated as the spec words
it: the XOR of individual_hash over the positions derived for challenge c
passes pow_pass at the given difficulty (none models a panic of the
underlying primitives). -/
def powHit (O : Oracle) (fisch_iter : Nat) (prel : HashOutput)
    (openings : List G1) (r sk : Fr) (data : List Fr)
    (difficulty mvalue c : Nat) : Option Bool :=
  match derive_indices O fisch_iter c mvalue data.length with
  | none => none
  | some indices =>
    match proveFold O prel (Schnorr.prove sk r c) fisch_iter 0
        (indices.map fun ix => data.getD ix 0)
        (indices.map fun ix => openings.getD ix 0) hashZero with
    | none => none
    | some h => pow_pass h difficulty

/-- Verification outcome of slot i of a proof, with the prelude recomputed
from the proof as Proof::verify does. -/
def slotVerify (O : Oracle) (pf : Proof) (pk com : G1)
    (data_len difficulty mvalue i : Nat) : Option (Except String Bool) :=
  fischIterVerify O (pf.fisch_iters.getD i (.Commitment 0)) i
    (proofPrelude O pf pk com) pk com data_len difficulty mvalue

/-- Whether a verification outcome is a clean acceptance Ok(true). -/
def isOkTrue : Option (Except String Bool) → Bool
  | some (.ok true) => true
  | _ => false

/-- The number of slots that are BaseProof variants passing per-iteration
verification (the quantity the acceptance threshold is about). -/
def validCount (O : Oracle) (pf : Proof) (pk com : G1)
    (data_len difficulty mvalue : Nat) : Nat :=
  (List.range pf.fisch_iters.length).countP fun i =>
    (pf.fisch_iters.getD i (.Commitment 0)).isBase &&
    isOkTrue (slotVerify O pf pk com data_len difficulty mvalue i)

/-- Replacement of slot j by the bare Commitment holding that slot's Schnorr
commitment a, as in the half-threshold scenario (src/proof.rs test
test_base_proof_tolerance): the prelude is unchanged because FischIter::a is
preserved. -/
def replaceSlot (pf : Proof) (j : Nat) : Proof :=
  ⟨pf.fisch_iters.set j
    (.Commitment ((pf.fisch_iters.getD j (.Commitment 0)).a))⟩

/-- The slot value that iteration i of Proof::prove emits (the payload of
fischIterProve, which never panics on the valid domain); used to name the
produced proof's slots. -/
def provedSlot (O : Oracle) (prel : HashOutput) (openings : List G1)
    (sk : Fr) (chunks : List Fr) (difficulty mvalue i : Nat) : FischIter :=
  (fischIterProve O i prel openings (O.rand i) sk chunks difficulty
    mvalue).getD (.Commitment 0)

/-- A trivial instantiation of the backend capabilities, used to evaluate
the embedding on closed inputs: the compression and hash oracles return the
zero state, the KZG check accepts, and batch opening returns zero openings
of the right length. -/
def O0 : Oracle where
  compress := fun _ _ => hashZero
  sha512 := fun _ => hashZero
  g1Bytes := fun _ => []
  frBytes := fun _ => []
  frFromBytes := fun _ => 0
  kzgCheck := fun _ _ _ _ => .ok true
  roots := [0]
  rand := fun _ => 0
  openAll := fun d => .ok (0, d.map fun _ => 0)

/-- A backend instantiation whose compression function returns the all-ones
state, so that no mining candidate ever passes a positive difficulty. -/
def Ofail : Oracle :=
  { O0 with compress := fun _ _ => fun _ => 1 }

/-- A BaseProof whose challenge equals maxc(0) = 1 exactly, with a valid
Schnorr transcript for sk = 2, r = 3. -/
def bpC1 : BaseProof := ⟨Schnorr.prove 2 3 1, [0], [0]⟩

/-- A valid BaseProof at iteration 0 for sk = 2, r = 3, c = 0 under O0. -/
def bpW : BaseProof := ⟨Schnorr.prove 2 3 0, [0], [0]⟩

/-- A two-slot proof with exactly one valid BaseProof slot. -/
def pfW : Proof := ⟨[.BaseProof bpW, .Commitment 5]⟩

/-- The all-Commitment proof that Proof::prove produces under Ofail. -/
def pfC3 : Proof := ⟨[.Commitment 0, .Commitment 0]⟩

/-- A BaseProof whose challenge 2 exceeds maxc(0) = 1. -/
def bpC9 : BaseProof := ⟨Schnorr.prove 2 3 2, [0], [0]⟩

/-- A two-slot proof containing one BaseProof slot that fails the challenge
bound check. -/
def pfC9 : Proof := ⟨[.BaseProof bpC9, .Commitment 0]⟩

section Lemmas

/-- Schnorr completeness: a transcript built by prove verifies against the
matching public key, by the ring laws of the scalar field. -/
theorem schnorr_prove_verify (sk r : Fr) (c : Nat) :
    (Schnorr.prove sk r c).verify (G1mul G1gen sk) = true := by
  simp [Schnorr.verify, Schnorr.prove, G1mul, G1add, G1gen, frOfU64]
  ring

/-- Inversion for derive_indices: a non-panicking run implies the asserted
bounds hold and delivers exactly num_indices indices below data_len. -/
theorem derive_some_inv {O : Oracle} {i c m d : Nat} {l : List Nat}
    (h : derive_indices O i c m d = some l) :
    m ≤ 32 ∧ 0 < d ∧ d ≤ 65535 ∧ l.length = m ∧ ∀ x ∈ l, x < d := by
  unfold derive_indices at h
  split_ifs at h with h1 h2 h3
  have hl := (Option.some.inj h).symm
  subst hl
  refine ⟨by omega, by omega, by omega, ?_, ?_⟩
  · simp [u16sOfState]
    omega
  · intro x hx
    have hx' := List.take_subset _ _ hx
    simp only [List.mem_map] at hx'
    obtain ⟨y, -, rfl⟩ := hx'
    exact Nat.mod_lt _ (by omega)

/-- Existence for derive_indices on the valid domain. -/
theorem derive_some_of (O : Oracle) (i c : Nat) {m d : Nat}
    (hm : m ≤ 32) (hd1 : 0 < d) (hd2 : d ≤ 65535) :
    ∃ l, derive_indices O i c m d = some l := by
  unfold derive_indices
  split_ifs with h1 h2 h3 <;> first | omega | exact ⟨_, rfl⟩

/-- derive_indices panics when data_len = 0 (remainder by zero). -/
theorem derive_zero (O : Oracle) (i c m : Nat) :
    derive_indices O i c m 0 = none := by
  simp [derive_indices]

/-- mapM over Option succeeds pointwise. -/
theorem mapM_eq_map_of {α β : Type} {f : α → Option β} {g : α → β}
    {l : List α} (h : ∀ a ∈ l, f a = some (g a)) :
    l.mapM f = some (l.map g) := by
  induction l with
  | nil => rfl
  | cons a l ih =>
    rw [List.mapM_cons, h a (by simp), ih fun x hx => h x (by simp [hx])]
    rfl

/-- mapM over Option fails whenever one element fails. -/
theorem mapM_eq_none_of {α β : Type} {f : α → Option β} {l : List α}
    {a : α} (ha : a ∈ l) (h : f a = none) : l.mapM f = none := by
  induction l with
  | nil => cases ha
  | cons b l ih =>
    rw [List.mapM_cons]
    rcases List.mem_cons.mp ha with rfl | ha'
    · rw [h]; rfl
    · cases hb : f b
      · rfl
      · rw [ih ha']; rfl

/-- Collecting a list of Ok results yields Ok of the payloads. -/
theorem collect_ok {l : List Bool} :
    collectExcept (l.map Except.ok) = .ok l := by
  induction l with
  | nil => rfl
  | cons b l ih => simp [collectExcept, ih]

/-- Counting true in a map is counting the predicate. -/
theorem count_true_map {α : Type} (g : α → Bool) (l : List α) :
    (l.map g).count true = l.countP g := by
  rw [List.count_eq_countP, List.countP_map]
  apply List.countP_congr
  intro x _
  simp [Function.comp]

/-- Reading a list back off the index range reproduces the list. -/
theorem map_getD_range {α : Type} (l : List α) (d : α) :
    (List.range l.length).map (fun i => l.getD i d) = l := by
  apply List.ext_get?
  intro n
  rcases Nat.lt_or_ge n l.length with h | h
  · rw [List.get?_map, List.get?_range h, Option.map_some']
    cases hg : l.get? n with
    | none => exact absurd (List.get?_eq_none.mp hg) (by omega)
    | some a =>
      have hd : l.getD n d = a := by rw [List.getD_eq_get?, hg]; rfl
      rw [hd]
  · rw [List.get?_eq_none.mpr (by simpa using h), List.get?_eq_none.mpr h]

/-- Counting a slot predicate over the index range is counting it over the
slots. -/
theorem countP_range_getD {α : Type} (l : List α) (d : α) (p : α → Bool) :
    ((List.range l.length).countP fun i => p (l.getD i d)) = l.countP p := by
  conv_rhs => rw [← map_getD_range l d]
  rw [List.countP_map]
  rfl

/-- A bare Commitment slot verifies to Ok(false). -/
theorem fischIterVerify_commitment (O : Oracle) (a : G1) (i : Nat)
    (prel : HashOutput) (pk com : G1) (data_len difficulty mvalue : Nat) :
    fischIterVerify O (.Commitment a) i prel pk com data_len difficulty
      mvalue = some (.ok false) :=
  rfl

/-- Evaluation of Proof::verify when every slot verification returns a clean
boolean: the result is the threshold test over the per-slot booleans. -/
theorem proofVerify_eval (O : Oracle) (pf : Proof) (pk com : G1)
    (data_len difficulty mvalue : Nat) (g : Nat → Bool)
    (heven : pf.fisch_iters.length % 2 = 0)
    (hg : ∀ i < pf.fisch_iters.length,
      fischIterVerify O (pf.fisch_iters.getD i (.Commitment 0)) i
        (proofPrelude O pf pk com) pk com data_len difficulty mvalue =
        some (.ok (g i))) :
    proofVerify O pf pk com data_len difficulty mvalue =
      some (.ok (decide ((List.range pf.fisch_iters.length).countP g * 2 ≥
        pf.fisch_iters.length))) := by
  have hmapM : (List.range pf.fisch_iters.length).mapM
      (fun i => fischIterVerify O (pf.fisch_iters.getD i (.Commitment 0)) i
        (proofPrelude O pf pk com) pk com data_len difficulty mvalue) =
      some ((List.range pf.fisch_iters.length).map fun i => .ok (g i)) :=
    mapM_eq_map_of fun i hi => hg i (List.mem_range.mp hi)
  have hcollect : collectExcept
      ((List.range pf.fisch_iters.length).map fun i => .ok (g i)) =
      .ok ((List.range pf.fisch_iters.length).map g) := by
    rw [show ((List.range pf.fisch_iters.length).map fun i =>
        (Except.ok (g i) : Except String Bool)) =
        ((List.range pf.fisch_iters.length).map g).map Except.ok by
      rw [List.map_map]; rfl]
    exact collect_ok
  unfold proofVerify
  rw [if_neg (by simp [heven]), hmapM]
  simp only [hcollect, count_true_map]

/-- Removing one satisfied index from a range count decreases it by one. -/
theorem countP_range_except {g g' : Nat → Bool} {n j : Nat} (hj : j < n)
    (hgj : g j = true) (hg'j : g' j = false)
    (hagree : ∀ i, i ≠ j → g' i = g i) :
    (List.range n).countP g' + 1 = (List.range n).countP g := by
  induction n with
  | zero => omega
  | succ n ih =>
    rw [List.range_succ]
    simp only [List.countP_append, List.countP_cons, List.countP_nil]
    rcases eq_or_ne j n with rfl | hne
    · have hcc : (List.range j).countP g' = (List.range j).countP g :=
        List.countP_congr fun i hi => by
          rw [hagree i (by simp only [List.mem_range] at hi; omega)]
      rw [hcc, hgj, hg'j]
      simp
    · have hj' : j < n := by omega
      rw [hagree n (Ne.symm hne), ← ih hj']
      split_ifs <;> omega

end Lemmas

section Claims

/-- C7: the spec claims maxc(difficulty) = 2^difficulty for every
difficulty up to 64, but maxc returns a u32 and computes 1u32 << difficulty,
which overflows for every difficulty ≥ 32 (abort in debug builds, masked
shift in release builds); at difficulty = 32 no value 2^32 can be returned.
Below 32 the claimed value is produced. -/
theorem maxc_overflows_at_32 :
    maxcU32 32 = none ∧ (32 : Nat) ≤ 64 ∧ maxcU32 31 = some (2 ^ 31) :=
  ⟨rfl, by norm_num, rfl⟩

/-- C4: a Schnorr transcript produced by prove(sk, r, c) with a u32
challenge satisfies verify against pk = sk·G, i.e. fr(c)·pk + a = z·G. -/
theorem schnorr_transcript_verifies (sk r : Fr) (c : Nat)
    (hc : c < 2 ^ 32) :
    (Schnorr.prove sk r c).verify (G1mul G1gen sk) = true :=
  schnorr_prove_verify sk r c

/-- Witness for C4 at sk = 2, r = 3, c = 2137. -/
theorem schnorr_transcript_verifies_witness :
    (2137 : Nat) < 2 ^ 32 ∧
    (Schnorr.prove 2 3 2137).verify (G1mul G1gen 2) = true :=
  ⟨by norm_num, schnorr_transcript_verifies 2 3 2137 (by norm_num)⟩

/-- C10: a proof whose fisch_iters vector is empty is accepted by
Proof::verify for every public key, commitment, data length, difficulty and
m: the evenness assert passes and 0 valid slots meet the threshold 0·2 ≥ 0. -/
theorem proofVerify_empty_accepts (O : Oracle) (pk com : G1)
    (data_len difficulty mvalue : Nat) :
    proofVerify O ⟨[]⟩ pk com data_len difficulty mvalue = some (.ok true) :=
  rfl

/-- C1: the claim fails at schnorr.c = maxc(difficulty).  BaseProof::verify
checks c <= maxc(difficulty) (src/proof.rs line 249), so the boundary value
c = maxc is accepted: at difficulty 0 the BaseProof bpC1 with c = 1 =
maxc(0), a valid Schnorr transcript, passing KZG checks and passing PoW is
verified to Ok(true) instead of being rejected. -/
theorem verify_accepts_c_eq_maxc :
    bpC1.schnorr.c = 1 ∧ maxcU32 0 = some 1 ∧
    baseProofVerify O0 bpC1 0 hashZero (G1mul G1gen 2) 0 1 0 1 =
      some (.ok true) :=
  ⟨rfl, rfl, by rfl⟩

/-- C6: the claimed domain data_len ≤ 2^16 is off by one: derive_indices
asserts data_len <= u16::MAX = 2^16 - 1, so at data_len = 2^16 it panics
instead of returning m indices. -/
theorem derive_indices_panics_at_65536 :
    derive_indices O0 0 0 1 65536 = none :=
  rfl

/-- C6 amended: for m ≤ 32 and 1 ≤ data_len ≤ 2^16 - 1, derive_indices
returns exactly m indices, each strictly below data_len, and is a
single-valued function of its arguments. -/
theorem derive_indices_spec (O : Oracle) (i c : Nat) {m d : Nat}
    (hm : m ≤ 32) (hd1 : 1 ≤ d) (hd2 : d ≤ 65535) :
    ∃ l, derive_indices O i c m d = some l ∧ l.length = m ∧
      (∀ x ∈ l, x < d) ∧
      ∀ l₂, derive_indices O i c m d = some l₂ → l₂ = l := by
  obtain ⟨l, hl⟩ := derive_some_of O i c hm hd1 hd2
  obtain ⟨-, -, -, hlen, hmem⟩ := derive_some_inv hl
  refine ⟨l, hl, hlen, hmem, fun l₂ h₂ => ?_⟩
  rw [hl] at h₂
  exact (Option.some.inj h₂).symm

/-- Witness for C6 amended at i = 1, c = 0, m = 8, data_len = 10. -/
theorem derive_indices_spec_witness :
    ∃ l, derive_indices O0 1 0 8 10 = some l ∧ l.length = 8 ∧
      (∀ x ∈ l, x < 10) ∧
      ∀ l₂, derive_indices O0 1 0 8 10 = some l₂ → l₂ = l :=
  derive_indices_spec O0 1 0 (by norm_num) (by norm_num) (by norm_num)

/-- C8: the claim fails for byte lengths that are powers of two but not
multiples of 32.  Proof::prove only asserts is_power_of_two (src/proof.rs
lines 192-195); 16 bytes pass that assert, chunks_exact(32) silently drops
all 16 bytes, and with nfisch = 0 the call completes successfully instead
of failing before work begins. -/
theorem prove_accepts_16_bytes :
    isPow2 16 = true ∧ ¬(32 ∣ 16) ∧
    proofProve O0 2 (List.replicate 16 0) 0 0 1 =
      some (.ok (some ⟨[]⟩, 0)) :=
  ⟨rfl, by norm_num, by rfl⟩

/-- C8 amended: Proof::prove aborts at its precondition assert exactly for
byte lengths that are not powers of two (there is no multiple-of-32 check),
and for lengths that are multiples of 32 the chunking yields exactly
len/32 chunks of 32 bytes each. -/
theorem proofProve_precondition (O : Oracle) (sk : Fr) (data : List Nat)
    (nfisch difficulty mvalue : Nat) :
    (isPow2 data.length = false →
      proofProve O sk data nfisch difficulty mvalue = none) ∧
    (32 ∣ data.length →
      (dataChunks O data).length = data.length / 32 ∧
      ∀ i < data.length / 32, ((data.drop (32 * i)).take 32).length = 32) := by
  constructor
  · intro h
    unfold proofProve
    rw [h]
    rfl
  · intro hdvd
    refine ⟨by simp [dataChunks], ?_⟩
    intro i hi
    obtain ⟨k, hk⟩ := hdvd
    simp only [List.length_take, List.length_drop]
    rw [hk] at hi ⊢
    rw [Nat.mul_div_cancel_left k (by norm_num)] at hi
    have : 32 * i + 32 ≤ 32 * k := by omega
    omega

/-- Witness for C8 amended: a 3-byte input aborts at the precondition, and
a 64-byte input yields 2 chunks. -/
theorem proofProve_precondition_witness :
    proofProve O0 2 (List.replicate 3 0) 0 0 1 = none ∧
    (dataChunks O0 (List.replicate 64 0)).length = 2 :=
  ⟨(proofProve_precondition O0 2 (List.replicate 3 0) 0 0 1).1 (by rfl),
    ((proofProve_precondition O0 2 (List.replicate 64 0) 0 0 1).2
      (by norm_num)).1⟩

/-- C2: for a proof with an even number T of slots whose slot verifications
all return clean booleans, Proof::verify returns Ok(true) iff twice the
number of BaseProof slots passing per-iteration verification is at least T
(a Commitment slot never counts as valid); consequently a proof with exactly
T/2 valid slots verifies, and replacing one more valid slot by its bare
Commitment makes verification return Ok(false). -/
theorem proofVerify_threshold (O : Oracle) (pf : Proof) (pk com : G1)
    (data_len difficulty mvalue : Nat)
    (heven : pf.fisch_iters.length % 2 = 0)
    (hok : ∀ i < pf.fisch_iters.length, ∃ b,
      slotVerify O pf pk com data_len difficulty mvalue i = some (.ok b)) :
    (proofVerify O pf pk com data_len difficulty mvalue = some (.ok true) ↔
      2 * validCount O pf pk com data_len difficulty mvalue ≥
        pf.fisch_iters.length) ∧
    (2 * validCount O pf pk com data_len difficulty mvalue =
        pf.fisch_iters.length →
      proofVerify O pf pk com data_len difficulty mvalue = some (.ok true)) ∧
    (∀ j bp, pf.fisch_iters.get? j = some (.BaseProof bp) →
      slotVerify O pf pk com data_len difficulty mvalue j = some (.ok true) →
      2 * validCount O pf pk com data_len difficulty mvalue =
        pf.fisch_iters.length →
      proofVerify O (replaceSlot pf j) pk com data_len difficulty mvalue =
        some (.ok false)) := by
  have hg : ∀ i < pf.fisch_iters.length,
      fischIterVerify O (pf.fisch_iters.getD i (.Commitment 0)) i
        (proofPrelude O pf pk com) pk com data_len difficulty mvalue =
        some (.ok (isOkTrue
          (slotVerify O pf pk com data_len difficulty mvalue i))) := by
    intro i hi
    obtain ⟨b, hb⟩ := hok i hi
    have hgb : isOkTrue (slotVerify O pf pk com data_len difficulty mvalue i)
        = b := by rw [hb]; cases b <;> rfl
    rw [hgb]
    exact hb
  have heval := proofVerify_eval O pf pk com data_len difficulty mvalue
    (fun i => isOkTrue (slotVerify O pf pk com data_len difficulty mvalue i))
    heven hg
  have hcount : (List.range pf.fisch_iters.length).countP
      (fun i => isOkTrue (slotVerify O pf pk com data_len difficulty mvalue
        i)) = validCount O pf pk com data_len difficulty mvalue := by
    unfold validCount
    apply List.countP_congr
    intro i _
    cases hslot : pf.fisch_iters.getD i (.Commitment 0) with
    | Commitment a =>
      have hcv : slotVerify O pf pk com data_len difficulty mvalue i =
          some (.ok false) := by
        unfold slotVerify
        rw [hslot]
        rfl
      simp [hcv, isOkTrue, hslot, FischIter.isBase]
    | BaseProof bp => simp [hslot, FischIter.isBase]
  rw [hcount] at heval
  refine ⟨?_, ?_, ?_⟩
  · rw [heval]
    simp only [Option.some.injEq, Except.ok.injEq, decide_eq_true_eq]
    omega
  · intro h2
    rw [heval]
    simp only [Option.some.injEq, Except.ok.injEq, decide_eq_true_eq]
    omega
  · intro j bp hj hvj h2
    obtain ⟨hjlt, -⟩ := List.get?_eq_some.mp hj
    have hgetD : pf.fisch_iters.getD j (.Commitment 0) = .BaseProof bp := by
      rw [List.getD_eq_get?, hj]; rfl
    have hset : (replaceSlot pf j).fisch_iters =
        pf.fisch_iters.set j (.Commitment bp.schnorr.a) := by
      unfold replaceSlot
      rw [hgetD]
      rfl
    have hlen' : (replaceSlot pf j).fisch_iters.length =
        pf.fisch_iters.length := by rw [hset, List.length_set]
    have hget' : ∀ n, (replaceSlot pf j).fisch_iters.get? n =
        if j = n then ((pf.fisch_iters.get? n).map
          fun _ => .Commitment bp.schnorr.a) else pf.fisch_iters.get? n := by
      intro n
      rw [hset, List.get?_set]
      rcases eq_or_ne j n with rfl | hne
      · rw [if_pos rfl, if_pos rfl]; rfl
      · rw [if_neg hne, if_neg hne]
    have hprel : proofPrelude O (replaceSlot pf j) pk com =
        proofPrelude O pf pk com := by
      unfold proofPrelude preludeHash
      have hmapa : (replaceSlot pf j).fisch_iters.map FischIter.a =
          pf.fisch_iters.map FischIter.a := by
        apply List.ext_get?
        intro n
        rw [List.get?_map, List.get?_map, hget']
        rcases eq_or_ne j n with rfl | hne
        · rw [if_pos rfl, hj]
          rfl
        · rw [if_neg hne]
      rw [hmapa]
    have hg' : ∀ i < (replaceSlot pf j).fisch_iters.length,
        fischIterVerify O ((replaceSlot pf j).fisch_iters.getD i
          (.Commitment 0)) i (proofPrelude O (replaceSlot pf j) pk com) pk
          com data_len difficulty mvalue =
        some (.ok ((fun i => if i = j then false else isOkTrue
          (slotVerify O pf pk com data_len difficulty mvalue i)) i)) := by
      intro i hi
      rw [hlen'] at hi
      by_cases hij : i = j
      · have hsl : (replaceSlot pf j).fisch_iters.getD i (.Commitment 0) =
            .Commitment bp.schnorr.a := by
          rw [List.getD_eq_get?, hget' i, if_pos hij.symm, hij, hj]
          rfl
        rw [hsl]
        simp [hij, fischIterVerify]
      · have hsl : (replaceSlot pf j).fisch_iters.getD i (.Commitment 0) =
            pf.fisch_iters.getD i (.Commitment 0) := by
          rw [List.getD_eq_get?, List.getD_eq_get?, hget' i,
            if_neg fun h => hij h.symm]
        rw [hsl, hprel]
        simpa [hij] using hg i hi
    have heval' := proofVerify_eval O (replaceSlot pf j) pk com data_len
      difficulty mvalue _ (by rw [hlen']; exact heven) hg'
    rw [hlen'] at heval'
    have hgj : isOkTrue (slotVerify O pf pk com data_len difficulty mvalue j)
        = true := by rw [hvj]; rfl
    have hcount' : (List.range pf.fisch_iters.length).countP
        (fun i => if i = j then false else isOkTrue
          (slotVerify O pf pk com data_len difficulty mvalue i)) + 1 =
        (List.range pf.fisch_iters.length).countP
        (fun i => isOkTrue
          (slotVerify O pf pk com data_len difficulty mvalue i)) :=
      countP_range_except hjlt hgj (by simp)
        (fun i hne => by simp [if_neg hne])
    rw [heval']
    simp only [Option.some.injEq, Except.ok.injEq]
    rw [decide_eq_false_iff_not]
    rw [hcount] at hcount'
    have hpos : 0 < validCount O pf pk com data_len difficulty mvalue := by
      rw [← hcount]
      exact List.countP_pos.mpr ⟨j, List.mem_range.mpr hjlt, hgj⟩
    omega

/-- Witness for C2: a two-slot proof with exactly one valid BaseProof slot
is accepted. -/
theorem proofVerify_threshold_witness :
    proofVerify O0 pfW (G1mul G1gen 2) 0 1 0 1 = some (.ok true) :=
  (proofVerify_threshold O0 pfW (G1mul G1gen 2) 0 1 0 1 rfl
    (by
      intro i hi
      have h2 : i < 2 := by simpa [pfW] using hi
      interval_cases i
      · exact ⟨true, by rfl⟩
      · exact ⟨false, by rfl⟩)).2.1 (by rfl)

/-- C9: the claim fails as stated.  With data_len = 0, a proof containing a
BaseProof slot does not necessarily panic: the slot here fails the challenge
bound check c <= maxc(difficulty) first, BaseProof::verify short-circuits to
Ok(false) before reaching derive_indices, and Proof::verify returns
Ok(false) rather than panicking. -/
theorem dataLen_zero_no_panic_example :
    pfC9.fisch_iters.get? 0 = some (.BaseProof bpC9) ∧
    proofVerify O0 pfC9 (G1mul G1gen 2) 0 0 0 1 = some (.ok false) :=
  ⟨rfl, by rfl⟩

/-- C9 amended: Proof::verify with data_len = 0 panics (division or
remainder by zero inside derive_indices) whenever some BaseProof slot
reaches index derivation, i.e. passes the challenge bound and the Schnorr
check; slots failing those earlier checks return Ok(false) instead. -/
theorem proofVerify_dataLen_zero_panics (O : Oracle) (pf : Proof)
    (pk com : G1) (difficulty mvalue j : Nat) (bp : BaseProof)
    (hd : difficulty < 32)
    (hj : pf.fisch_iters.get? j = some (.BaseProof bp))
    (hc : bp.schnorr.c ≤ 2 ^ difficulty)
    (hs : bp.schnorr.verify pk = true) :
    proofVerify O pf pk com 0 difficulty mvalue = none := by
  by_cases heven : pf.fisch_iters.length % 2 = 0
  · unfold proofVerify
    rw [if_neg (by simp [heven])]
    obtain ⟨hjlt, -⟩ := List.get?_eq_some.mp hj
    have hgetD : pf.fisch_iters.getD j (.Commitment 0) = .BaseProof bp := by
      rw [List.getD_eq_get?, hj]; rfl
    have hmx : maxcU32 difficulty = some (2 ^ difficulty) := by
      unfold maxcU32; rw [if_pos hd]
    have hslot : fischIterVerify O (pf.fisch_iters.getD j (.Commitment 0)) j
        (proofPrelude O pf pk com) pk com 0 difficulty mvalue = none := by
      rw [hgetD]
      simp only [fischIterVerify, baseProofVerify, hmx]
      rw [if_neg (by simp [hc]), if_neg (by simp [hs]), derive_zero]
    rw [mapM_eq_none_of (List.mem_range.mpr hjlt) hslot]
  · unfold proofVerify
    rw [if_pos heven]

/-- Witness for C9 amended: a proof holding one well-formed BaseProof slot
panics at data_len = 0. -/
theorem proofVerify_dataLen_zero_panics_witness :
    proofVerify O0 pfW (G1mul G1gen 2) 0 0 0 1 = none :=
  proofVerify_dataLen_zero_panics O0 pfW (G1mul G1gen 2) 0 0 1 0 bpW
    (by norm_num) rfl (by decide) (by rfl)

section MiningLemmas

/-- The mining hash accumulator never panics when the enumerate counter
stays below 256 and the iteration index fits a u16. -/
theorem proveFold_some (O : Oracle) (prel : HashOutput) (s : Schnorr)
    {fi : Nat} (hfi : fi < 65536) :
    ∀ (vs : List Fr) (ops : List G1) (k : Nat) (h : HashOutput),
      k + vs.length ≤ 256 →
      ∃ h', proveFold O prel s fi k vs ops h = some h' := by
  intro vs
  induction vs with
  | nil => exact fun ops k h _ => ⟨h, rfl⟩
  | cons v vs ih =>
    intro ops k h hk
    cases ops with
    | nil => exact ⟨h, rfl⟩
    | cons op ops =>
      simp only [proveFold]
      rw [if_neg (by simp at hk ⊢; omega)]
      have hih : individual_hash O prel s fi k v op =
          some (O.compress prel (O.g1Bytes op ++ (bytesLE s.c 4 ++
            List.replicate 28 0) ++ O.frBytes s.z ++ (O.frBytes v).take 8 ++
            [k] ++ bytesLE fi 2 ++ List.replicate 5 0)) := by
        unfold individual_hash
        rw [if_neg (by omega)]
      rw [hih]
      exact ih ops (k + 1) _ (by simp at hk ⊢; omega)

/-- Full characterization of one mining candidate on the valid domain: the
indices derive, the hash accumulates, the PoW test returns a boolean b equal
to powHit, and the candidate returns the assembled BaseProof iff b. -/
theorem attempt_characterization (O : Oracle) (fisch_iter : Nat)
    (prel : HashOutput) (openings : List G1) (r sk : Fr) (data : List Fr)
    (difficulty mvalue : Nat)
    (hlen : data.length = openings.length) (h1 : 1 ≤ data.length)
    (h2 : data.length ≤ 65535) (hm : mvalue ≤ 32) (hfi : fisch_iter < 65536)
    (hd64 : difficulty ≤ 64) (c : Nat) :
    ∃ idxs, derive_indices O fisch_iter c mvalue data.length = some idxs ∧
    ∃ hh, proveFold O prel (Schnorr.prove sk r c) fisch_iter 0
        (idxs.map fun ix => data.getD ix 0)
        (idxs.map fun ix => openings.getD ix 0) hashZero = some hh ∧
    ∃ b, pow_pass hh difficulty = some b ∧
      powHit O fisch_iter prel openings r sk data difficulty mvalue c =
        some b ∧
      attempt O fisch_iter prel openings r sk data difficulty mvalue c =
        some (if b then some ⟨Schnorr.prove sk r c,
          idxs.map fun ix => data.getD ix 0,
          idxs.map fun ix => openings.getD ix 0⟩ else none) := by
  obtain ⟨idxs, hderive⟩ := derive_some_of O fisch_iter c hm h1 h2
  obtain ⟨-, -, -, hlenI, hmem⟩ := derive_some_inv hderive
  obtain ⟨hh, hfold⟩ := proveFold_some O prel (Schnorr.prove sk r c) hfi
    (idxs.map fun ix => data.getD ix 0)
    (idxs.map fun ix => openings.getD ix 0) 0 hashZero
    (by simp [hlenI]; omega)
  have hpow : pow_pass hh difficulty =
      some (decide (difficulty ≤ tz64 (hh 0))) := by
    unfold pow_pass
    rw [if_pos hd64]
  refine ⟨idxs, hderive, hh, hfold, decide (difficulty ≤ tz64 (hh 0)),
    hpow, ?_, ?_⟩
  · simp only [powHit, hderive, hfold]
    exact hpow
  · simp only [attempt, hderive]
    rw [if_neg (by omega), if_neg (by
      simp only [List.all_eq_true, Bool.and_eq_true, decide_eq_true_eq,
        not_not]
      intro ix hix
      exact ⟨hmem ix hix, hlen ▸ hmem ix hix⟩)]
    simp only [hfold, hpow]
    cases hb : decide (difficulty ≤ tz64 (hh 0)) <;> simp

/-- The ascending scan returns the first successful candidate, or none after
exhausting the fuel. -/
theorem mineFrom_spec (O : Oracle) (fisch_iter : Nat) (prel : HashOutput)
    (openings : List G1) (r sk : Fr) (data : List Fr)
    (difficulty mvalue : Nat)
    (hattempt : ∀ c, ∃ o,
      attempt O fisch_iter prel openings r sk data difficulty mvalue c =
        some o) :
    ∀ (fuel start : Nat), ∃ res,
      mineFrom O fisch_iter prel openings r sk data difficulty mvalue start
        fuel = some res ∧
      ((res = none ∧ ∀ j < fuel,
        attempt O fisch_iter prel openings r sk data difficulty mvalue
          (start + j) = some none) ∨
       (∃ j bp, j < fuel ∧ res = some bp ∧
        attempt O fisch_iter prel openings r sk data difficulty mvalue
          (start + j) = some (some bp) ∧
        ∀ j' < j,
          attempt O fisch_iter prel openings r sk data difficulty mvalue
            (start + j') = some none)) := by
  intro fuel
  induction fuel with
  | zero => exact fun start => ⟨none, rfl, .inl ⟨rfl, by omega⟩⟩
  | succ fuel ih =>
    intro start
    obtain ⟨o, ho⟩ := hattempt start
    cases o with
    | some bp =>
      refine ⟨some bp, ?_, .inr ⟨0, bp, by omega, rfl, by simpa using ho,
        by omega⟩⟩
      simp only [mineFrom, ho]
    | none =>
      obtain ⟨res, hres, hcase⟩ := ih (start + 1)
      refine ⟨res, ?_, ?_⟩
      · simp only [mineFrom, ho, hres]
      · rcases hcase with ⟨hnone, hall⟩ | ⟨j, bp, hj, hrb, hab, hprev⟩
        · refine .inl ⟨hnone, ?_⟩
          intro j hjf
          cases j with
          | zero => simpa using ho
          | succ j =>
            have := hall j (by omega)
            rw [show start + 1 + j = start + (j + 1) by omega] at this
            exact this
        · refine .inr ⟨j + 1, bp, by omega, hrb, ?_, ?_⟩
          · rw [show start + (j + 1) = start + 1 + j by omega]
            exact hab
          · intro j' hj'
            cases j' with
            | zero => simpa using ho
            | succ j' =>
              have := hprev j' (by omega)
              rw [show start + 1 + j' = start + (j' + 1) by omega] at this
              exact this

end MiningLemmas

/-- C5: on the valid domain, BaseProof::prove never panics and returns the
BaseProof assembled at the smallest challenge c in [0, maxc(difficulty)) =
[0, 2^difficulty) whose accumulated individual_hash XOR passes pow_pass,
with data and openings fields equal to the data values and openings at the
indices derived for that c; it returns None exactly when every c in the
range fails the PoW. -/
theorem baseProofProve_first_success (O : Oracle) (fisch_iter : Nat)
    (prel : HashOutput) (openings : List G1) (r sk : Fr) (data : List Fr)
    (difficulty mvalue : Nat)
    (hlen : data.length = openings.length) (h1 : 1 ≤ data.length)
    (h2 : data.length ≤ 65535) (hm : mvalue ≤ 32) (hfi : fisch_iter < 65536)
    (hd : difficulty < 32) :
    ∃ res, baseProofProve O fisch_iter prel openings r sk data difficulty
        mvalue = some res ∧
      (res = none ↔ ∀ c < 2 ^ difficulty,
        powHit O fisch_iter prel openings r sk data difficulty mvalue c =
          some false) ∧
      ∀ bp, res = some bp →
        bp.schnorr.c < 2 ^ difficulty ∧
        powHit O fisch_iter prel openings r sk data difficulty mvalue
          bp.schnorr.c = some true ∧
        (∀ c' < bp.schnorr.c,
          powHit O fisch_iter prel openings r sk data difficulty mvalue c' =
            some false) ∧
        bp.schnorr = Schnorr.prove sk r bp.schnorr.c ∧
        ∃ idxs, derive_indices O fisch_iter bp.schnorr.c mvalue
            data.length = some idxs ∧
          bp.data = idxs.map (fun ix => data.getD ix 0) ∧
          bp.openings = idxs.map (fun ix => openings.getD ix 0) := by
  have hd64 : difficulty ≤ 64 := by omega
  have hchar := attempt_characterization O fisch_iter prel openings r sk
    data difficulty mvalue hlen h1 h2 hm hfi hd64
  have hattempt : ∀ c, ∃ o,
      attempt O fisch_iter prel openings r sk data difficulty mvalue c =
        some o := by
    intro c
    obtain ⟨idxs, -, hh, -, b, -, -, hatt⟩ := hchar c
    exact ⟨_, hatt⟩
  have hfail : ∀ c,
      attempt O fisch_iter prel openings r sk data difficulty mvalue c =
        some none →
      powHit O fisch_iter prel openings r sk data difficulty mvalue c =
        some false := by
    intro c hc
    obtain ⟨idxs, hderive, hh, hfold, b, hpow, hph, hatt⟩ := hchar c
    rw [hatt] at hc
    cases b
    · exact hph
    · simp at hc
  have hfound : ∀ c bp,
      attempt O fisch_iter prel openings r sk data difficulty mvalue c =
        some (some bp) →
      powHit O fisch_iter prel openings r sk data difficulty mvalue c =
        some true ∧
      bp.schnorr = Schnorr.prove sk r c ∧ bp.schnorr.c = c ∧
      ∃ idxs, derive_indices O fisch_iter c mvalue data.length =
          some idxs ∧
        bp.data = idxs.map (fun ix => data.getD ix 0) ∧
        bp.openings = idxs.map (fun ix => openings.getD ix 0) := by
    intro c bp hc
    obtain ⟨idxs, hderive, hh, hfold, b, hpow, hph, hatt⟩ := hchar c
    rw [hatt] at hc
    cases b
    · simp at hc
    · simp only [if_true, Option.some.injEq] at hc
      subst hc
      exact ⟨hph, rfl, rfl, idxs, hderive, rfl, rfl⟩
  obtain ⟨res, hmine, hcase⟩ := mineFrom_spec O fisch_iter prel openings r
    sk data difficulty mvalue hattempt (2 ^ difficulty) 0
  have hmx : maxcU32 difficulty = some (2 ^ difficulty) := by
    unfold maxcU32; rw [if_pos hd]
  have hprove : baseProofProve O fisch_iter prel openings r sk data
      difficulty mvalue = some res := by
    unfold baseProofProve
    rw [if_neg (by omega)]
    simp only [hmx]
    exact hmine
  refine ⟨res, hprove, ?_, ?_⟩
  · constructor
    · intro hres
      rcases hcase with ⟨-, hall⟩ | ⟨j, bp, hj, hrb, -, -⟩
      · intro c hclt
        have := hall c hclt
        rw [Nat.zero_add] at this
        exact hfail c this
      · rw [hres] at hrb; cases hrb
    · intro hallfail
      rcases hcase with ⟨hnone, -⟩ | ⟨j, bp, hj, hrb, hab, -⟩
      · exact hnone
      · exfalso
        rw [Nat.zero_add] at hab
        have h1' := (hfound j bp hab).1
        have h2' := hallfail j hj
        rw [h1'] at h2'
        simp at h2'
  · intro bp hres
    rcases hcase with ⟨hnone, -⟩ | ⟨j, bp', hj, hrb, hab, hprev⟩
    · rw [hnone] at hres; cases hres
    · rw [hrb] at hres
      have heq : bp' = bp := Option.some.inj hres
      rw [Nat.zero_add] at hab
      obtain ⟨hpT, hschnorr, hcj, idxs, hderive, hdata, hopen⟩ :=
        hfound j bp' hab
      rw [heq] at hschnorr hcj hdata hopen
      rw [hcj]
      refine ⟨hj, hpT, ?_, hschnorr, idxs, hderive, hdata, hopen⟩
      intro c' hc'
      have := hprev c' hc'
      rw [Nat.zero_add] at this
      exact hfail c' this

section HonestProver

/-- individual_hash never panics when the iteration index fits a u16. -/
theorem individual_hash_some (O : Oracle) (prel : HashOutput) (s : Schnorr)
    {fi : Nat} (k : Nat) (v : Fr) (op : G1) (hfi : fi < 65536) :
    ∃ ph, individual_hash O prel s fi k v op = some ph :=
  ⟨_, by unfold individual_hash; rw [if_neg (by omega)]⟩

/-- Reading an index below n off a mapped range. -/
theorem getD_map_range {α : Type} (f : Nat → α) (d : α) {n i : Nat}
    (hi : i < n) : ((List.range n).map f).getD i d = f i := by
  rw [List.getD_eq_get?, List.get?_map, List.get?_range hi]
  rfl

/-- The verifier's opening/PoW loop agrees with the prover's hash
accumulator when every challenged opening passes the KZG check: it reduces
to the PoW test on the prover's accumulated hash. -/
theorem verifyFold_eq_proveFold (O : Oracle) (com : G1)
    (data_len difficulty : Nat) (prel : HashOutput) (s : Schnorr)
    {fi : Nat} (hfi : fi < 65536) (dataF : Nat → Fr) (openF : Nat → G1) :
    ∀ (idxs : List Nat) (k : Nat) (h : HashOutput),
      (∀ ix ∈ idxs, ∃ x, getPoint O data_len ix = some x ∧
        O.kzgCheck com (openF ix) x (dataF ix) = .ok true) →
      verifyFold O com data_len difficulty prel s fi k idxs
        (idxs.map dataF) (idxs.map openF) h =
      match proveFold O prel s fi k (idxs.map dataF) (idxs.map openF) h with
      | none => none
      | some hh => (pow_pass hh difficulty).map
          fun p => if p then .ok true else .ok false := by
  intro idxs
  induction idxs with
  | nil => intro k h _; rfl
  | cons ix idxs ih =>
    intro k h hcond
    obtain ⟨x, hx, hkzg⟩ := hcond ix (by simp)
    by_cases hk : 256 ≤ k
    · simp only [List.map_cons, verifyFold, proveFold, if_pos hk]
    · simp only [List.map_cons, verifyFold, proveFold, if_neg hk, hx, hkzg]
      rw [if_neg (by simp)]
      obtain ⟨ph, hih⟩ := individual_hash_some O prel s k (dataF ix)
        (openF ix) hfi
      simp only [hih]
      exact ih (k + 1) (bitxor h ph)
        (fun ix' hix' => hcond ix' (by simp [hix']))

/-- A BaseProof assembled by a successful mining candidate at challenge
c < maxc passes BaseProof::verify against pk = sk·G whenever the backend
KZG check accepts the honest openings. -/
theorem honest_baseProof_verifies (O : Oracle) (fisch_iter : Nat)
    (prel : HashOutput) (openings : List G1) (r sk : Fr) (data : List Fr)
    (difficulty mvalue : Nat) (com : G1) (bp : BaseProof) (c : Nat)
    (hlen : data.length = openings.length) (h1 : 1 ≤ data.length)
    (h2 : data.length ≤ 65535) (hm : mvalue ≤ 32) (hfi : fisch_iter < 65536)
    (hd : difficulty < 32)
    (hkzg : ∀ ix < data.length, ∃ x, getPoint O data.length ix = some x ∧
      O.kzgCheck com (openings.getD ix 0) x (data.getD ix 0) = .ok true)
    (hatt : attempt O fisch_iter prel openings r sk data difficulty mvalue c
      = some (some bp)) (hc : c < 2 ^ difficulty) :
    baseProofVerify O bp fisch_iter prel (G1mul G1gen sk) com data.length
      difficulty mvalue = some (.ok true) := by
  obtain ⟨idxs, hderive, hh, hfold, b, hpow, hph, hatt'⟩ :=
    attempt_characterization O fisch_iter prel openings r sk data
      difficulty mvalue hlen h1 h2 hm hfi (by omega) c
  rw [hatt'] at hatt
  obtain ⟨-, -, -, hlenI, hmem⟩ := derive_some_inv hderive
  cases b
  · simp at hatt
  · simp only [if_true, Option.some.injEq] at hatt
    have hbt : pow_pass hh difficulty = some true := hpow
    have hsch : bp.schnorr = Schnorr.prove sk r c := by rw [← hatt]
    have hdat : bp.data = idxs.map fun ix => data.getD ix 0 := by
      rw [← hatt]
    have hop : bp.openings = idxs.map fun ix => openings.getD ix 0 := by
      rw [← hatt]
    have hcq : bp.schnorr.c = c := by rw [hsch]; rfl
    have hmx : maxcU32 difficulty = some (2 ^ difficulty) := by
      unfold maxcU32; rw [if_pos hd]
    simp only [baseProofVerify, hmx, hcq]
    rw [if_neg (by omega)]
    rw [if_neg (not_not_intro (by
      rw [hsch]; exact schnorr_prove_verify sk r c))]
    simp only [hderive]
    rw [if_neg (by simp [hlenI]), if_neg (by simp [hdat, hop])]
    rw [hsch, hdat, hop]
    rw [verifyFold_eq_proveFold O com data.length difficulty prel
      (Schnorr.prove sk r c) hfi (fun ix => data.getD ix 0)
      (fun ix => openings.getD ix 0) idxs 0 hashZero
      (fun ix hix => hkzg ix (hmem ix hix))]
    simp only [hfold, hbt]
    rfl

/-- One honest Fischlin iteration never panics, and the slot it emits
verifies exactly when it is a BaseProof; its Schnorr commitment is r·G in
either case. -/
theorem honest_slot (O : Oracle) (fisch_iter : Nat) (prel : HashOutput)
    (openings : List G1) (r sk : Fr) (data : List Fr)
    (difficulty mvalue : Nat) (com : G1)
    (hlen : data.length = openings.length) (h1 : 1 ≤ data.length)
    (h2 : data.length ≤ 65535) (hm : mvalue ≤ 32) (hfi : fisch_iter < 65536)
    (hd : difficulty < 32)
    (hkzg : ∀ ix < data.length, ∃ x, getPoint O data.length ix = some x ∧
      O.kzgCheck com (openings.getD ix 0) x (data.getD ix 0) = .ok true) :
    ∃ fi', fischIterProve O fisch_iter prel openings r sk data difficulty
        mvalue = some fi' ∧
      fischIterVerify O fi' fisch_iter prel (G1mul G1gen sk) com data.length
        difficulty mvalue = some (.ok fi'.isBase) ∧
      fi'.a = G1mul G1gen r := by
  have hd64 : difficulty ≤ 64 := by omega
  have hchar := attempt_characterization O fisch_iter prel openings r sk
    data difficulty mvalue hlen h1 h2 hm hfi hd64
  have hattempt : ∀ c, ∃ o,
      attempt O fisch_iter prel openings r sk data difficulty mvalue c =
        some o := by
    intro c
    obtain ⟨idxs, -, hh, -, b, -, -, hatt⟩ := hchar c
    exact ⟨_, hatt⟩
  obtain ⟨res, hmine, hcase⟩ := mineFrom_spec O fisch_iter prel openings r
    sk data difficulty mvalue hattempt (2 ^ difficulty) 0
  have hmx : maxcU32 difficulty = some (2 ^ difficulty) := by
    unfold maxcU32; rw [if_pos hd]
  have hprove : baseProofProve O fisch_iter prel openings r sk data
      difficulty mvalue = some res := by
    unfold baseProofProve
    rw [if_neg (by omega)]
    simp only [hmx]
    exact hmine
  rcases hcase with ⟨hres, -⟩ | ⟨j, bp, hj, hres, hab, -⟩
  · refine ⟨.Commitment (G1mul G1gen r), ?_, rfl, rfl⟩
    simp only [fischIterProve, hprove, hres]
  · rw [Nat.zero_add] at hab
    obtain ⟨idxs, hderive, hh, hfold, b, hpow, hph, hatt'⟩ := hchar j
    have hab2 := hab
    rw [hatt'] at hab2
    refine ⟨.BaseProof bp, ?_, ?_, ?_⟩
    · simp only [fischIterProve, hprove, hres]
    · show baseProofVerify O bp fisch_iter prel (G1mul G1gen sk) com
        data.length difficulty mvalue = some (.ok true)
      exact honest_baseProof_verifies O fisch_iter prel openings r sk data
        difficulty mvalue com bp j hlen h1 h2 hm hfi hd hkzg hab hj
    · cases b
      · simp at hab2
      · simp only [if_true, Option.some.injEq] at hab2
        have hsch : bp.schnorr = Schnorr.prove sk r j := by rw [← hab2]
        show bp.schnorr.a = G1mul G1gen r
        rw [hsch]
        rfl

end HonestProver

/-- The aggregation body of Proof::prove on the valid domain: it succeeds,
emits exactly nfisch slots with slot i built from iteration index i and
nonce r_i = rand(i) in index order, and Proof::verify with pk = sk·G and
the returned commitment evaluates to the threshold test over the BaseProof
slots. -/
theorem proofProveChunks_sound (O : Oracle) (sk : Fr) (chunks : List Fr)
    (nfisch difficulty mvalue : Nat) (com : G1) (openings : List G1)
    (hopen : O.openAll chunks = .ok (com, openings))
    (hlen : chunks.length = openings.length)
    (h1 : 1 ≤ chunks.length) (h2 : chunks.length ≤ 65535)
    (hm : mvalue ≤ 32) (hnf : nfisch ≤ 65536) (hd : difficulty < 32)
    (heven : nfisch % 2 = 0)
    (hkzg : ∀ ix < chunks.length, ∃ x,
      getPoint O chunks.length ix = some x ∧
      O.kzgCheck com (openings.getD ix 0) x (chunks.getD ix 0) = .ok true) :
    ∃ pf : Proof,
      proofProveChunks O sk chunks nfisch difficulty mvalue =
        some (.ok (some pf, com)) ∧
      pf.fisch_iters.length = nfisch ∧
      (∀ i < nfisch, pf.fisch_iters.get? i =
        fischIterProve O i
          (preludeHash O (G1mul G1gen sk) com
            ((List.range nfisch).map fun j => G1mul G1gen (O.rand j)))
          openings (O.rand i) sk chunks difficulty mvalue) ∧
      proofVerify O pf (G1mul G1gen sk) com chunks.length difficulty mvalue
        = some (.ok (decide
          (pf.fisch_iters.countP FischIter.isBase * 2 ≥ nfisch))) := by
  have hprelEq : (((List.range nfisch).map O.rand).map
      fun r => G1mul G1gen r) =
      (List.range nfisch).map fun j => G1mul G1gen (O.rand j) := by
    rw [List.map_map]
    rfl
  have hgslot : ∀ i < nfisch,
      fischIterProve O i
        (preludeHash O (G1mul G1gen sk) com
          ((List.range nfisch).map fun j => G1mul G1gen (O.rand j)))
        openings (O.rand i) sk chunks difficulty mvalue =
        some (provedSlot O
          (preludeHash O (G1mul G1gen sk) com
            ((List.range nfisch).map fun j => G1mul G1gen (O.rand j)))
          openings sk chunks difficulty mvalue i) ∧
      fischIterVerify O (provedSlot O
          (preludeHash O (G1mul G1gen sk) com
            ((List.range nfisch).map fun j => G1mul G1gen (O.rand j)))
          openings sk chunks difficulty mvalue i) i
        (preludeHash O (G1mul G1gen sk) com
          ((List.range nfisch).map fun j => G1mul G1gen (O.rand j)))
        (G1mul G1gen sk) com chunks.length difficulty mvalue =
        some (.ok (provedSlot O
          (preludeHash O (G1mul G1gen sk) com
            ((List.range nfisch).map fun j => G1mul G1gen (O.rand j)))
          openings sk chunks difficulty mvalue i).isBase) ∧
      (provedSlot O
          (preludeHash O (G1mul G1gen sk) com
            ((List.range nfisch).map fun j => G1mul G1gen (O.rand j)))
          openings sk chunks difficulty mvalue i).a =
        G1mul G1gen (O.rand i) := by
    intro i hi
    obtain ⟨fi', hp, hv, ha⟩ := honest_slot O i
      (preludeHash O (G1mul G1gen sk) com
        ((List.range nfisch).map fun j => G1mul G1gen (O.rand j)))
      openings (O.rand i) sk chunks difficulty mvalue com hlen h1 h2 hm
      (by omega) hd hkzg
    have hPi : provedSlot O
        (preludeHash O (G1mul G1gen sk) com
          ((List.range nfisch).map fun j => G1mul G1gen (O.rand j)))
        openings sk chunks difficulty mvalue i = fi' := by
      unfold provedSlot
      rw [hp]
      rfl
    rw [hPi]
    exact ⟨hp, hv, ha⟩
  have hmapM : (List.range nfisch).mapM
      (fun fisch_iter => fischIterProve O fisch_iter
        (preludeHash O (G1mul G1gen sk) com
          (((List.range nfisch).map O.rand).map fun r => G1mul G1gen r))
        openings (((List.range nfisch).map O.rand).getD fisch_iter 0) sk
        chunks difficulty mvalue) =
      some ((List.range nfisch).map (provedSlot O
        (preludeHash O (G1mul G1gen sk) com
          ((List.range nfisch).map fun j => G1mul G1gen (O.rand j)))
        openings sk chunks difficulty mvalue)) := by
    apply mapM_eq_map_of
    intro i hi
    have hilt := List.mem_range.mp hi
    rw [hprelEq, getD_map_range O.rand 0 hilt]
    exact (hgslot i hilt).1
  refine ⟨⟨(List.range nfisch).map (provedSlot O
    (preludeHash O (G1mul G1gen sk) com
      ((List.range nfisch).map fun j => G1mul G1gen (O.rand j)))
    openings sk chunks difficulty mvalue)⟩, ?_, by simp, ?_, ?_⟩
  · simp only [proofProveChunks, hopen, hmapM]
  · intro i hi
    rw [List.get?_map, List.get?_range hi, (hgslot i hi).1]
    rfl
  · have hpp : proofPrelude O ⟨(List.range nfisch).map (provedSlot O
        (preludeHash O (G1mul G1gen sk) com
          ((List.range nfisch).map fun j => G1mul G1gen (O.rand j)))
        openings sk chunks difficulty mvalue)⟩ (G1mul G1gen sk) com =
        preludeHash O (G1mul G1gen sk) com
          ((List.range nfisch).map fun j => G1mul G1gen (O.rand j)) := by
      unfold proofPrelude
      rw [List.map_map]
      exact congrArg (fun l => preludeHash O (G1mul G1gen sk) com l)
        (List.map_congr_left fun i hi =>
          (hgslot i (List.mem_range.mp hi)).2.2)
    have hlenpf : (Proof.mk ((List.range nfisch).map (provedSlot O
        (preludeHash O (G1mul G1gen sk) com
          ((List.range nfisch).map fun j => G1mul G1gen (O.rand j)))
        openings sk chunks difficulty mvalue))).fisch_iters.length =
        nfisch := by simp
    have heval := proofVerify_eval O ⟨(List.range nfisch).map (provedSlot O
        (preludeHash O (G1mul G1gen sk) com
          ((List.range nfisch).map fun j => G1mul G1gen (O.rand j)))
        openings sk chunks difficulty mvalue)⟩ (G1mul G1gen sk) com
      chunks.length difficulty mvalue
      (fun i => (provedSlot O
        (preludeHash O (G1mul G1gen sk) com
          ((List.range nfisch).map fun j => G1mul G1gen (O.rand j)))
        openings sk chunks difficulty mvalue i).isBase)
      (by rw [hlenpf]; exact heven)
      (by
        intro i hi
        rw [hlenpf] at hi
        rw [hpp]
        rw [show (Proof.mk ((List.range nfisch).map (provedSlot O
            (preludeHash O (G1mul G1gen sk) com
              ((List.range nfisch).map fun j => G1mul G1gen (O.rand j)))
            openings sk chunks difficulty mvalue))).fisch_iters.getD i
            (.Commitment 0) = provedSlot O
            (preludeHash O (G1mul G1gen sk) com
              ((List.range nfisch).map fun j => G1mul G1gen (O.rand j)))
            openings sk chunks difficulty mvalue i from
          getD_map_range _ _ hi]
        exact (hgslot i hi).2.1)
    rw [heval, hlenpf]
    rw [show List.countP FischIter.isBase ((List.range nfisch).map
        (provedSlot O (preludeHash O (G1mul G1gen sk) com
          ((List.range nfisch).map fun j => G1mul G1gen (O.rand j)))
        openings sk chunks difficulty mvalue)) =
        (List.range nfisch).countP (fun i => (provedSlot O
          (preludeHash O (G1mul G1gen sk) com
            ((List.range nfisch).map fun j => G1mul G1gen (O.rand j)))
          openings sk chunks difficulty mvalue i).isBase) from
      List.countP_map _ _ _]

/-- C3: the claim fails as stated.  Under the backend Ofail (whose
compression function yields the all-ones state, so no candidate ever has a
trailing zero bit) both iterations at difficulty 1 exhaust the nonce range:
Proof::prove returns a fresh proof consisting of two Commitment slots, and
Proof::verify rejects it (0 valid slots, threshold 0·2 ≥ 2 fails). -/
theorem fresh_proof_can_fail_verification :
    proofProve Ofail 2 (List.replicate 32 0) 2 1 1 =
      some (.ok (some pfC3, 0)) ∧
    proofVerify Ofail pfC3 (G1mul G1gen 2) 0 1 1 1 = some (.ok false) :=
  ⟨by rfl, by rfl⟩

/-- C3 amended: on the valid domain (data length a power of two, nfisch
even and at most 2^16, difficulty < 32, m ≤ 32, backend KZG correctness for
the honest openings), Proof::prove succeeds and returns a Proof with
exactly nfisch fisch_iters, slot i built from iteration index i and nonce
r_i = rand(i) (index order, so the recomputed prelude matches), and
Proof::verify with pk = sk·G and the returned commitment evaluates to the
threshold test: it accepts iff at least half the slots found a BaseProof.
Acceptance is therefore NOT unconditional: when more than half the
iterations exhaust the nonce budget the fresh proof is rejected (see the
counterexample). -/
theorem proofProve_spec (O : Oracle) (sk : Fr) (data : List Nat)
    (nfisch difficulty mvalue : Nat) (com : G1) (openings : List G1)
    (hpow2 : isPow2 data.length = true)
    (hopen : O.openAll (dataChunks O data) = .ok (com, openings))
    (hlen : (dataChunks O data).length = openings.length)
    (h1 : 1 ≤ (dataChunks O data).length)
    (h2 : (dataChunks O data).length ≤ 65535)
    (hm : mvalue ≤ 32) (hnf : nfisch ≤ 65536) (hd : difficulty < 32)
    (heven : nfisch % 2 = 0)
    (hkzg : ∀ ix < (dataChunks O data).length, ∃ x,
      getPoint O (dataChunks O data).length ix = some x ∧
      O.kzgCheck com (openings.getD ix 0) x
        ((dataChunks O data).getD ix 0) = .ok true) :
    ∃ pf : Proof,
      proofProve O sk data nfisch difficulty mvalue =
        some (.ok (some pf, com)) ∧
      pf.fisch_iters.length = nfisch ∧
      (∀ i < nfisch, pf.fisch_iters.get? i =
        fischIterProve O i
          (preludeHash O (G1mul G1gen sk) com
            ((List.range nfisch).map fun j => G1mul G1gen (O.rand j)))
          openings (O.rand i) sk (dataChunks O data) difficulty mvalue) ∧
      proofVerify O pf (G1mul G1gen sk) com (dataChunks O data).length
        difficulty mvalue = some (.ok (decide
          (pf.fisch_iters.countP FischIter.isBase * 2 ≥ nfisch))) := by
  obtain ⟨pf, hp, hl, hs, hv⟩ := proofProveChunks_sound O sk
    (dataChunks O data) nfisch difficulty mvalue com openings hopen hlen h1
    h2 hm hnf hd heven hkzg
  refine ⟨pf, ?_, hl, hs, hv⟩
  unfold proofProve
  rw [if_neg (by simp [hpow2])]
  exact hp

/-- Witness for C3 amended: 32 bytes of zeros at difficulty 0 under O0. -/
theorem proofProve_spec_witness :
    ∃ pf : Proof, proofProve O0 2 (List.replicate 32 0) 2 0 1 =
      some (.ok (some pf, 0)) := by
  obtain ⟨pf, hp, -, -, -⟩ := proofProve_spec O0 2 (List.replicate 32 0)
    2 0 1 0 [0] (by rfl) (by rfl) (by rfl) (by decide) (by decide)
    (by norm_num) (by norm_num) (by norm_num) (by norm_num)
    (by
      intro ix hix
      have hix1 : ix < 1 := by simpa [dataChunks] using hix
      have hix0 : ix = 0 := by omega
      subst hix0
      exact ⟨0, rfl, rfl⟩)
  exact ⟨pf, hp⟩

/-- Witness for C5 at difficulty 0 with a single data value. -/
theorem baseProofProve_first_success_witness :
    ∃ res, baseProofProve O0 0 hashZero [0] 3 2 [0] 0 1 = some res := by
  obtain ⟨res, hres, -, -⟩ := baseProofProve_first_success O0 0 hashZero
    [0] 3 2 [0] 0 1 rfl (by norm_num) (by norm_num) (by norm_num)
    (by norm_num) (by norm_num)
  exact ⟨res, hres⟩

end Claims

end Beholders
